import Mathlib

/-!
Verification development for the Live Drawing Countdown + Announcer
application (`src/main.py`).  The Python source is shallowly embedded:

* timestamps from the monotonic clock are modelled in whole milliseconds
  (`Nat`), so `int(now - last)` in seconds becomes `(now - last) / 1000`;
* Python ints are `Int` (poses, remaining time) or `Nat` where the source
  guarantees non-negativity;
* the filesystem is an association list from path strings to byte lists,
  newest write first;
* a zip archive is a list of named entries in write order; an entry's
  payload is either a raw byte blob (an audio asset, which `json.loads`
  would reject) or a structurally represented JSON document (what
  `json.loads` would return for it);
* fallible operations return `Option` / `Except` where the Python code
  can raise.
-/

namespace LifeDrawing

/-! ## Decimal rendering (embeds Python `str(int)` / format specifiers) -/

/-- One decimal digit as a character ('*' is unreachable for digits < 10). -/
def digitChar : Nat → Char
  | 0 => '0' | 1 => '1' | 2 => '2' | 3 => '3' | 4 => '4'
  | 5 => '5' | 6 => '6' | 7 => '7' | 8 => '8' | 9 => '9'
  | _ => '*'

/-- Decimal digits, most significant first; `fuel` bounds the digit count
(structural recursion keeps the definition kernel-reducible). -/
def natToDigitsAux : Nat → Nat → List Char
  | 0, _ => []
  | fuel + 1, n =>
    if n < 10 then [digitChar n]
    else natToDigitsAux fuel (n / 10) ++ [digitChar (n % 10)]

/-- Decimal digits of a natural number, most significant first. -/
def natToDigits (n : Nat) : List Char :=
  natToDigitsAux (n + 1) n

/-- Embeds Python `str` on a non-negative int. -/
def natToString (n : Nat) : String :=
  ⟨natToDigits n⟩

/-- Embeds Python `str` on an int (sign handling included). -/
def intToString (n : Int) : String :=
  if n < 0 then "-" ++ natToString (-n).toNat else natToString n.toNat

/-- Embeds the Python format specifier `{n:02d}` for non-negative `n`. -/
def pad2 (n : Nat) : String :=
  if n < 10 then "0" ++ natToString n else natToString n

/-! ## `seconds_to_hhmmss` (src/main.py lines 71-79) -/

/-- Embeds `seconds_to_hhmmss`: clamp negatives to 0, then render
`h:mm:ss` when an hour component is present, else `mm:ss`.
(`{h:01d}` imposes no padding, so it is plain `str(h)`.) -/
def seconds_to_hhmmss (total : Int) : String :=
  let t : Nat := total.toNat
  let h : Nat := t / 3600
  let m : Nat := (t % 3600) / 60
  let s : Nat := t % 60
  if h > 0 then natToString h ++ ":" ++ pad2 m ++ ":" ++ pad2 s
  else pad2 m ++ ":" ++ pad2 s

/-- Number of ':' separators in a rendered label (used to observe whether
the hour component is present). -/
def countColons (s : String) : Nat :=
  s.data.countP (· = ':')

/-! ## Timer engine (src/main.py lines 246-283) -/

/-- Events observable from `TimerEngine`: `tick_signal(int)` and
`finished_signal()`. -/
inductive Ev where
  | tick (remaining : Int)
  | finished
deriving DecidableEq, Repr

/-- State of `TimerEngine`: `remaining`, `running`, `_last` (monotonic
timestamp in ms) and whether the QTimer is active. -/
structure Engine where
  remaining : Int
  running : Bool
  last : Nat
  timerActive : Bool
deriving DecidableEq, Repr

/-- The engine as constructed in `TimerEngine.__init__`. -/
def Engine.init : Engine :=
  { remaining := 0, running := false, last := 0, timerActive := false }

/-- Embeds `TimerEngine.start(seconds)` at monotonic time `now`:
reset remaining, mark running, record the timestamp, start the QTimer and
immediately emit a tick with the full remaining value. -/
def Engine.start (seconds : Int) (now : Nat) : Engine × List Ev :=
  ({ remaining := seconds, running := true, last := now, timerActive := true },
   [Ev.tick seconds])

/-- Embeds `TimerEngine.stop()`. -/
def Engine.stop (e : Engine) : Engine :=
  { e with running := false, timerActive := false }

/-- Embeds one `TimerEngine._tick` callback at monotonic time `now`
(`now ≥ e.last` for a monotonic clock; with `Nat` subtraction an earlier
`now` yields `dt = 0`, the same early return as Python's negative `dt`).
`dt = int(now - self._last)` in whole seconds; on `dt ≤ 0` return;
otherwise set `_last = now`, decrement, emit the tick, and on
`remaining ≤ 0` stop and emit the completion signal. -/
def Engine.tickStep (e : Engine) (now : Nat) : Engine × List Ev :=
  if e.running then
    let dt : Nat := (now - e.last) / 1000
    if dt = 0 then (e, [])
    else
      let r : Int := e.remaining - (dt : Int)
      if r ≤ 0 then
        ({ remaining := r, running := false, last := now, timerActive := false },
         [Ev.tick r, Ev.finished])
      else
        ({ remaining := r, running := true, last := now, timerActive := true },
         [Ev.tick r])
  else (e, [])

/-- Run the engine over a list of sampling-callback times, collecting the
emitted events in order. -/
def Engine.run (e : Engine) : List Nat → Engine × List Ev
  | [] => (e, [])
  | t :: ts =>
    let (e', ev) := e.tickStep t
    let (e'', evs) := e'.run ts
    (e'', ev ++ evs)

/-- `start` followed by an uninterrupted sequence of sampling callbacks;
returns all emitted events. -/
def startRun (seconds : Int) (t0 : Nat) (samples : List Nat) :
    Engine × List Ev :=
  let (e, ev) := Engine.start seconds t0
  let (e', evs) := e.run samples
  (e', ev ++ evs)

/-- When every sampling callback observes at most one whole elapsed second,
`goodCount t samples` returns the number of callbacks that observe exactly
one; otherwise `none`.  (`t` is the `_last` timestamp, which the engine
only advances on a whole-second observation.) -/
def goodCount : Nat → List Nat → Option Nat
  | _, [] => some 0
  | t, x :: xs =>
    let dt := (x - t) / 1000
    if dt = 0 then goodCount t xs
    else if dt = 1 then (goodCount x xs).map (· + 1)
    else none

/-- The tick values `d-1, d-2, …, 0` of an uninterrupted countdown. -/
def ticksDown : Nat → List Ev
  | 0 => []
  | n + 1 => Ev.tick (n : Int) :: ticksDown n

/-! ## Paths and bytes -/

/-- Bytes of an audio asset, treated as an opaque blob. -/
abbrev Bytes := List Nat

/-- ASCII lowering of one character, embedding `str.lower` on the ASCII
range that the application's filenames use. -/
def lowerChar : Char → Char
  | 'A' => 'a' | 'B' => 'b' | 'C' => 'c' | 'D' => 'd' | 'E' => 'e'
  | 'F' => 'f' | 'G' => 'g' | 'H' => 'h' | 'I' => 'i' | 'J' => 'j'
  | 'K' => 'k' | 'L' => 'l' | 'M' => 'm' | 'N' => 'n' | 'O' => 'o'
  | 'P' => 'p' | 'Q' => 'q' | 'R' => 'r' | 'S' => 's' | 'T' => 't'
  | 'U' => 'u' | 'V' => 'v' | 'W' => 'w' | 'X' => 'x' | 'Y' => 'y'
  | 'Z' => 'z'
  | c => c

/-- Embeds `str.lower` (ASCII range). -/
def strLower (s : String) : String :=
  ⟨s.data.map lowerChar⟩

/-- Embeds `pathlib.Path(p).name`: the final path component (for the
slash-free zip member names and file names the application produces). -/
def pathName (p : String) : String :=
  ⟨(p.data.reverse.takeWhile (· ≠ '/')).reverse⟩

/-- Embeds `pathlib.Path(p).suffix`: the extension of the final component,
dot included; empty when the name has no dot, starts with its only dot, or
ends with a dot (the `0 < i < len(name) - 1` rule of `pathlib`). -/
def pathSuffix (p : String) : String :=
  let name := (pathName p).data
  let ext := name.reverse.takeWhile (· ≠ '.')
  if ext.length + 1 < name.length ∧ ext ≠ []
  then ⟨'.' :: ext.reverse⟩ else ""

/-! ## Filesystem

An association list from absolute path to bytes, newest write first; the
directory tree is not modelled (directory creation always succeeds on the
source's happy path). -/

abbrev FS := List (String × Bytes)

/-- Read a file: the most recent write to that path. -/
def FS.read (fs : FS) (p : String) : Option Bytes :=
  (fs.find? (fun e => e.1 = p)).map (·.2)

/-- Embeds `Path.exists()`. -/
def FS.exists (fs : FS) (p : String) : Bool :=
  (fs.read p).isSome

/-- Write (or overwrite) a file. -/
def FS.write (fs : FS) (p : String) (b : Bytes) : FS :=
  (p, b) :: fs

/-! ## Cues (src/main.py lines 59-66) -/

/-- The closed set of six announcement cues. -/
inductive Cue where
  | sessionStart | poseStart | fiveMin | oneMin | thirtySec | over
deriving DecidableEq, Repr

/-- The cue key strings, as in the `CUES` table. -/
def Cue.key : Cue → String
  | .sessionStart => "session_start"
  | .poseStart => "pose_start"
  | .fiveMin => "five_min"
  | .oneMin => "one_min"
  | .thirtySec => "thirty_sec"
  | .over => "over"

/-- The fixed enumeration order of `CUES`. -/
def cueList : List Cue :=
  [.sessionStart, .poseStart, .fiveMin, .oneMin, .thirtySec, .over]

/-! ## JSON (what `json.loads` / `json.dumps` observe) -/

/-- Structural JSON values. -/
inductive Json where
  | null
  | num (n : Int)
  | str (s : String)
  | obj (fields : List (String × Json))
  | arr (elems : List Json)

/-- Python `dict.get` over an object's fields (keys of a parsed JSON
object are unique, so first match suffices). -/
def jlookup (fields : List (String × Json)) (k : String) : Option Json :=
  (fields.find? (fun f => f.1 = k)).map (·.2)

mutual
/-- A plain `json.dumps` rendering (whitespace simplified; the source's
`indent=2` output differs only in whitespace, which nothing reads back). -/
def jsonDumps : Json → String
  | .null => "null"
  | .num n => intToString n
  | .str s => "\x22" ++ s ++ "\x22"
  | .obj fs => "\x7b" ++ dumpFields fs ++ "\x7d"
  | .arr es => "[" ++ dumpElems es ++ "]"

def dumpFields : List (String × Json) → String
  | [] => ""
  | (k, v) :: rest =>
    "\x22" ++ k ++ "\x22: " ++ jsonDumps v ++
      (if rest.isEmpty then "" else ", ") ++ dumpFields rest

def dumpElems : List Json → String
  | [] => ""
  | v :: rest =>
    jsonDumps v ++ (if rest.isEmpty then "" else ", ") ++ dumpElems rest
end

/-- Byte view of a string (code points; assets are opaque blobs, nothing
ever decodes these). -/
def strBytes (s : String) : Bytes :=
  s.data.map Char.toNat

/-! ## Zip archives -/

/-- Payload of a zip entry: a raw blob (which `json.loads` rejects), or a
byte payload represented by the JSON document `json.loads` yields for it. -/
inductive EntryData where
  | blob (b : Bytes)
  | jsonDoc (j : Json)

/-- The raw bytes of an entry (for a JSON document, its serialization). -/
def EntryData.rawBytes : EntryData → Bytes
  | .blob b => b
  | .jsonDoc j => strBytes (jsonDumps j)

/-- One zip entry. -/
structure Entry where
  name : String
  data : EntryData

/-- A zip container: entries in write order. -/
abbrev Archive := List Entry

/-- Embeds `zf.namelist()`. -/
def Archive.names (ar : Archive) : List String :=
  ar.map (·.name)

/-- Embeds `zf.read(name)` / `zf.open(name)`: `zipfile` resolves a name to
its last occurrence in the archive. -/
def Archive.lookupLast : Archive → String → Option Entry
  | [], _ => none
  | e :: es, n =>
    match Archive.lookupLast es n with
    | some r => some r
    | none => if e.name = n then some e else none

/-! ## SoundBank (src/main.py lines 92-157)

The `QSoundEffect` objects are playback plumbing with no bearing on the
claims; the modelled state is the base directory and the cue→path map. -/

structure SoundBank where
  baseDir : String
  cueFiles : Cue → Option String

/-- Embeds `SoundBank.set_cue_file` (the `QSoundEffect.setSource` side
effect is playback plumbing, not modelled). -/
def SoundBank.setCueFile (bank : SoundBank) (cue : Cue) (p : Option String) :
    SoundBank :=
  { bank with cueFiles := fun c => if c = cue then p else bank.cueFiles c }

/-- The archive member name `f"{cue_key}{src.suffix.lower()}"`. -/
def arcNameOf (cue : Cue) (src : String) : String :=
  cue.key ++ strLower (pathSuffix src)

/-- The asset entries written by the `export_soundbank` loop, in cue
order: one `zf.write(src, arcname=...)` per registered, existing asset. -/
def exportAssetEntries (bank : SoundBank) (fs : FS) : List Cue → List Entry
  | [] => []
  | c :: cs =>
    match bank.cueFiles c with
    | some src =>
      if fs.exists src then
        ⟨arcNameOf c src, .blob ((fs.read src).getD [])⟩ ::
          exportAssetEntries bank fs cs
      else exportAssetEntries bank fs cs
    | none => exportAssetEntries bank fs cs

/-- The manifest value the export loop records for one cue: the archive
member name when an asset is registered and present on disk, else null. -/
def manifestValue (bank : SoundBank) (fs : FS) (c : Cue) : Json :=
  match bank.cueFiles c with
  | some src => if fs.exists src then .str (arcNameOf c src) else .null
  | none => .null

/-- The `manifest["cues"]` pairs built by the same loop, in cue order. -/
def exportCuePairs (bank : SoundBank) (fs : FS) : List Cue → List (String × Json)
  | [] => []
  | c :: cs => (c.key, manifestValue bank fs c) :: exportCuePairs bank fs cs

/-- The manifest document `{"version": 1, "cues": {...}}`. -/
def exportManifest (bank : SoundBank) (fs : FS) : Json :=
  .obj [("version", .num 1), ("cues", .obj (exportCuePairs bank fs cueList))]

/-- Embeds `SoundBank.export_soundbank`: the asset entries in cue order,
then `zf.writestr("manifest.json", json.dumps(manifest))`.  (The
`out_path.with_suffix` normalization concerns only where the archive file
lands on disk, not its contents.) -/
def export_soundbank (bank : SoundBank) (fs : FS) : Archive :=
  exportAssetEntries bank fs cueList ++
    [⟨"manifest.json", .jsonDoc (exportManifest bank fs)⟩]

/-- The exceptions `import_soundbank` can raise: `zf.read` on a missing
member (`KeyError`), `json.loads` on non-JSON bytes (`JSONDecodeError`),
and `.get` on a non-dict (`AttributeError`). -/
inductive PyErr where
  | keyError | jsonDecodeError | attributeError
deriving DecidableEq, Repr

/-- The per-cue loop of `import_soundbank`: for each cue, look up its
manifest value; only a non-empty string naming a present member is
extracted (`if arc_name and arc_name in zf.namelist()` — a `None`, empty,
or non-string value is falsy or never equal to a member name, and a
missing member is silently skipped); extraction copies the member's bytes
to `target_dir / Path(arc_name).name` and registers that path. -/
def importCues (ar : Archive) (targetDir : String)
    (cfields : List (String × Json)) :
    List Cue → SoundBank → FS → SoundBank × FS
  | [], bank, fs => (bank, fs)
  | c :: cs, bank, fs =>
    match jlookup cfields c.key with
    | some (.str s) =>
      if s ≠ "" ∧ s ∈ ar.names then
        let dest := targetDir ++ "/" ++ pathName s
        let bytes := ((ar.lookupLast s).map (·.data.rawBytes)).getD []
        importCues ar targetDir cfields cs (bank.setCueFile c (some dest))
          (fs.write dest bytes)
      else importCues ar targetDir cfields cs bank fs
    | _ => importCues ar targetDir cfields cs bank fs

/-- Embeds `SoundBank.import_soundbank` (`stamp` is the wall-clock string
`time.strftime("%Y%m%d_%H%M%S")`).  A missing `manifest.json` raises
`KeyError`; non-JSON manifest bytes raise `JSONDecodeError`; a non-object
manifest, a `null` `"cues"` value, or a non-object `"cues"` value raises
`AttributeError` (from `.get` — for a non-object `"cues"` Python raises at
the first loop iteration, before any extraction or registration, which is
observationally the same point). -/
def import_soundbank (bank : SoundBank) (fs : FS) (ar : Archive)
    (stamp : String) : Except PyErr (SoundBank × FS) :=
  match ar.lookupLast "manifest.json" with
  | none => .error .keyError
  | some e =>
    match e.data with
    | .blob _ => .error .jsonDecodeError
    | .jsonDoc m =>
      match m with
      | .obj mfields =>
        match (jlookup mfields "cues").getD (.obj []) with
        | .obj cfields =>
          let targetDir := bank.baseDir ++ "/soundbank_" ++ stamp
          .ok (importCues ar targetDir cfields cueList bank fs)
        | _ => .error .attributeError
      | _ => .error .attributeError

/-- The manifest value recorded for a cue in an archive, as the import
loop reads it (used to state frame conditions about `import_soundbank`). -/
def manifestCueRef (ar : Archive) (c : Cue) : Option Json :=
  match ar.lookupLast "manifest.json" with
  | some ⟨_, .jsonDoc (.obj mfields)⟩ =>
    match (jlookup mfields "cues").getD (.obj []) with
    | .obj cfields => jlookup cfields c.key
    | _ => none
  | _ => none

/-! ## TimerWindow session logic (src/main.py lines 288-418)

Only the session state machine is modelled: the pose list and its list
widget labels, the current index, the auto-advance checkbox, the status
label (`pose_info`), the countdown display label, the engine, and the
sequence of cues handed to `SoundBank.play` (playback itself is
fire-and-forget plumbing). -/

/-- A pose (src/main.py lines 82-87). -/
structure Pose where
  seconds : Int
deriving DecidableEq, Repr

/-- `Pose.label`. -/
def Pose.label (p : Pose) : String :=
  seconds_to_hhmmss p.seconds

/-- Python list indexing: non-negative indices from the front, negative
indices from the back, `IndexError` (`none`) outside `-len ≤ i < len`. -/
def pyGet (l : List Pose) (i : Int) : Option Pose :=
  if 0 ≤ i then l.get? i.toNat
  else if 0 ≤ (l.length : Int) + i then l.get? ((l.length : Int) + i).toNat
  else none

/-- The modelled window state. -/
structure WState where
  poses : List Pose
  poseItems : List String
  currentIndex : Int
  autoAdvance : Bool
  poseInfo : String
  display : String
  engine : Engine
  played : List String

/-- The window at construction time (src/main.py lines 288-334):
empty pose list, `current_index = -1`, auto-advance checked. -/
def WState.init : WState :=
  { poses := [], poseItems := [], currentIndex := -1, autoAdvance := true,
    poseInfo := "Idle", display := "00:00", engine := Engine.init,
    played := [] }

/-- Record a `SoundBank.play` call. -/
def WState.play (st : WState) (cue : String) : WState :=
  { st with played := st.played ++ [cue] }

/-- Embeds `TimerWindow.add_pose` with the spin-box values read as
`minutes` and `seconds`: reject a non-positive total silently, else append
the pose and its list-widget label. -/
def add_pose (st : WState) (minutes seconds : Int) : WState :=
  let total := minutes * 60 + seconds
  if total ≤ 0 then st
  else
    { st with poses := st.poses ++ [⟨total⟩],
              poseItems := st.poseItems ++ [seconds_to_hhmmss total] }

/-- Embeds `TimerWindow.start_pose` at monotonic time `now`:
`self.poses[self.current_index]` (an out-of-range index is an
`IndexError`, `none`), set the status label, play `pose_start`, and start
the engine; the engine's immediate tick drives `update_display`. -/
def start_pose (st : WState) (now : Nat) : Option WState :=
  match pyGet st.poses st.currentIndex with
  | none => none
  | some pose =>
    let st1 := { st with poseInfo := "Pose " ++ intToString (st.currentIndex + 1) }
    let st2 := st1.play "pose_start"
    let (eng, _) := Engine.start pose.seconds now
    some { st2 with engine := eng, display := seconds_to_hhmmss pose.seconds }

/-- Embeds `TimerWindow.start_session`: a no-op on an empty pose list,
else index 0, play `session_start`, then `start_pose`. -/
def start_session (st : WState) (now : Nat) : Option WState :=
  if st.poses.isEmpty then some st
  else
    start_pose ({ st with currentIndex := 0 }.play "session_start") now

/-- Embeds `TimerWindow.next_pose`: advance and start the next pose
exactly when one exists. -/
def next_pose (st : WState) (now : Nat) : Option WState :=
  if st.currentIndex < (st.poses.length : Int) - 1 then
    start_pose { st with currentIndex := st.currentIndex + 1 } now
  else some st

/-- Embeds `TimerWindow.on_pose_finished` (the engine-completion slot):
play `over`, then auto-advance to the next pose if enabled and one exists,
else settle on the terminal status label. -/
def on_pose_finished (st : WState) (now : Nat) : Option WState :=
  let st1 := st.play "over"
  if st1.autoAdvance then
    if st1.currentIndex < (st1.poses.length : Int) - 1 then
      start_pose { st1 with currentIndex := st1.currentIndex + 1 } now
    else some { st1 with poseInfo := "Session Complete" }
  else some { st1 with poseInfo := "Pose Finished (Manual Advance)" }

/-! # Helper lemmas -/

/-! ## Decimal digits and colon counting -/

theorem digitChar_ne_colon (d : Nat) : digitChar d ≠ ':' := by
  unfold digitChar
  split <;> decide

theorem colon_not_mem_natToDigitsAux (fuel : Nat) :
    ∀ n, ':' ∉ natToDigitsAux fuel n := by
  induction fuel with
  | zero => intro n; simp [natToDigitsAux]
  | succ fuel ih =>
    intro n
    simp only [natToDigitsAux]
    split
    · simp only [List.mem_singleton]
      intro h
      exact digitChar_ne_colon n h.symm
    · simp only [List.mem_append, List.mem_singleton]
      rintro (h | h)
      · exact ih _ h
      · exact digitChar_ne_colon _ h.symm

theorem countColons_append (a b : String) :
    countColons (a ++ b) = countColons a + countColons b := by
  simp [countColons, String.data_append, List.countP_append]

theorem countColons_natToString (n : Nat) :
    countColons (natToString n) = 0 := by
  simp only [countColons, natToString, natToDigits]
  rw [List.countP_eq_zero]
  intro a ha
  simp only [decide_eq_true_eq]
  intro hEq
  exact colon_not_mem_natToDigitsAux (n + 1) n (hEq ▸ ha)

theorem countColons_pad2 (n : Nat) : countColons (pad2 n) = 0 := by
  unfold pad2
  split
  · rw [countColons_append, countColons_natToString]
    decide
  · exact countColons_natToString n

/-- The hour component is rendered exactly when `t.toNat / 3600 > 0`,
observable as a second ':' separator. -/
theorem countColons_seconds_to_hhmmss (t : Int) :
    countColons (seconds_to_hhmmss t) = if 3600 ≤ t then 2 else 1 := by
  simp only [seconds_to_hhmmss]
  by_cases h : t.toNat / 3600 > 0
  · rw [if_pos h]
    rw [countColons_append, countColons_append, countColons_append,
      countColons_append, countColons_natToString, countColons_pad2,
      countColons_pad2]
    have hcolon : countColons ":" = 1 := by decide
    rw [hcolon]
    have : (3600 : Int) ≤ t := by omega
    rw [if_pos this]
  · rw [if_neg h]
    rw [countColons_append, countColons_append, countColons_pad2,
      countColons_pad2]
    have hcolon : countColons ":" = 1 := by decide
    rw [hcolon]
    have : ¬ (3600 : Int) ≤ t := by omega
    rw [if_neg this]

/-! ## Strings, paths and archive member names -/

theorem strMk_data (l : List Char) : (String.mk l).data = l := rfl

/-- Two character lists that differ at a common index stay different under
any right extension. -/
theorem char_append_ne (l1 l2 a b : List Char) (i : Nat)
    (h1 : i < l1.length) (h2 : i < l2.length)
    (hne : l1[i]? ≠ l2[i]?) : l1 ++ a ≠ l2 ++ b := by
  intro h
  have hcong := congrArg (fun l => l[i]?) h
  simp only at hcong
  rw [List.getElem?_append_left h1, List.getElem?_append_left h2] at hcong
  exact hne hcong

theorem Cue.key_injective : ∀ c c' : Cue, c.key = c'.key → c = c' := by
  intro c c'
  cases c <;> cases c' <;> simp [Cue.key]

/-- Distinct cues produce distinct archive member names: the six key
strings are pairwise non-prefixes of one another, so appending any
extension cannot make them collide. -/
theorem arcNameOf_inj (c c' : Cue) (hne : c ≠ c') (s s' : String) :
    arcNameOf c s ≠ arcNameOf c' s' := by
  intro heq
  have hd : (c.key).data ++ (strLower (pathSuffix s)).data =
      (c'.key).data ++ (strLower (pathSuffix s')).data := by
    have := congrArg String.data heq
    rwa [arcNameOf, arcNameOf, String.data_append, String.data_append] at this
  cases c <;> cases c' <;> simp only [Cue.key] at hd <;>
    first
      | exact hne rfl
      | exact char_append_ne _ _ _ _ 0 (by decide) (by decide) (by decide) hd
      | exact char_append_ne _ _ _ _ 1 (by decide) (by decide) (by decide) hd

/-- No asset member name collides with the manifest's. -/
theorem arcNameOf_ne_manifest (c : Cue) (s : String) :
    arcNameOf c s ≠ "manifest.json" := by
  intro heq
  have hd : (c.key).data ++ (strLower (pathSuffix s)).data =
      "manifest.json".data ++ ([] : List Char) := by
    have := congrArg String.data heq
    rw [arcNameOf, String.data_append] at this
    simpa using this
  cases c <;> simp only [Cue.key] at hd <;>
    exact char_append_ne _ _ _ _ 0 (by decide) (by decide) (by decide) hd

/-- Asset member names are never empty (the cue key is non-empty). -/
theorem arcNameOf_ne_empty (c : Cue) (s : String) : arcNameOf c s ≠ "" := by
  intro heq
  have hd : (c.key).data ++ (strLower (pathSuffix s)).data = [] := by
    have := congrArg String.data heq
    rwa [arcNameOf, String.data_append] at this
  have h1 := (List.append_eq_nil.mp hd).1
  cases c <;> exact absurd h1 (by decide)

theorem no_slash_pathName (p : String) : '/' ∉ (pathName p).data := by
  simp only [pathName, strMk_data]
  intro h
  rw [List.mem_reverse] at h
  have := List.mem_takeWhile_imp h
  simp at this

theorem no_slash_pathSuffix (p : String) : '/' ∉ (pathSuffix p).data := by
  simp only [pathSuffix]
  split
  · simp only [strMk_data, List.mem_cons]
    rintro (h | h)
    · exact absurd h (by decide)
    · rw [List.mem_reverse] at h
      have hsub := (List.takeWhile_prefix (fun c => c ≠ '.')).subset h
      rw [List.mem_reverse] at hsub
      exact no_slash_pathName p hsub
  · simp

theorem lowerChar_ne_slash (c : Char) (h : c ≠ '/') : lowerChar c ≠ '/' := by
  unfold lowerChar
  split <;> first | decide | assumption

theorem no_slash_strLower (s : String) (h : '/' ∉ s.data) :
    '/' ∉ (strLower s).data := by
  simp only [strLower, strMk_data]
  intro hm
  rw [List.mem_map] at hm
  obtain ⟨c, hc, hcl⟩ := hm
  exact lowerChar_ne_slash c (fun hceq => h (hceq ▸ hc)) hcl

theorem no_slash_arcName (c : Cue) (s : String) :
    '/' ∉ (arcNameOf c s).data := by
  rw [arcNameOf, String.data_append]
  intro h
  rw [List.mem_append] at h
  rcases h with h | h
  · cases c <;> exact absurd h (by decide)
  · exact no_slash_strLower _ (no_slash_pathSuffix s) h

/-- `Path(n).name` is the identity on slash-free names (zip member names
of files). -/
theorem pathName_of_no_slash (p : String) (h : '/' ∉ p.data) :
    pathName p = p := by
  apply String.ext
  simp only [pathName, strMk_data]
  have hall : ∀ x ∈ p.data.reverse, (fun c => decide (c ≠ '/')) x = true := by
    intro x hx
    rw [List.mem_reverse] at hx
    have : x ≠ '/' := fun heq => h (heq ▸ hx)
    simpa using this
  rw [List.takeWhile_eq_self_iff.mpr hall, List.reverse_reverse]

/-! ## Archive and filesystem lemmas -/

theorem lookupLast_append (l1 l2 : Archive) (n : String) :
    Archive.lookupLast (l1 ++ l2) n =
      match Archive.lookupLast l2 n with
      | some r => some r
      | none => Archive.lookupLast l1 n := by
  induction l1 with
  | nil =>
    simp only [List.nil_append, Archive.lookupLast]
    cases Archive.lookupLast l2 n <;> rfl
  | cons e es ih =>
    simp only [List.cons_append, Archive.lookupLast]
    have ih' : Archive.lookupLast (es.append l2) n =
        match Archive.lookupLast l2 n with
        | some r => some r
        | none => Archive.lookupLast es n := ih
    rw [ih']
    cases Archive.lookupLast l2 n <;> rfl

theorem FS.read_write (fs : FS) (p q : String) (b : Bytes) :
    (fs.write p b).read q = if q = p then some b else fs.read q := by
  by_cases h : q = p
  · rw [if_pos h]
    simp only [FS.write, FS.read]
    rw [List.find?_cons_of_pos _ (by simpa using h.symm)]
    rfl
  · rw [if_neg h]
    simp only [FS.write, FS.read]
    rw [List.find?_cons_of_neg _ (by simpa using fun hx => h hx.symm)]

/-! ## Export archive lemmas -/

/-- The manifest entry is always present (even with all cues empty) and is
the archive's last entry, carrying the version-1 document. -/
theorem lookupLast_export_manifest (bank : SoundBank) (fs : FS) :
    Archive.lookupLast (export_soundbank bank fs) "manifest.json" =
      some ⟨"manifest.json", .jsonDoc (exportManifest bank fs)⟩ := by
  rw [export_soundbank, lookupLast_append]
  simp [Archive.lookupLast]

/-- Unfolding equations for the export loop's asset entries. -/
theorem exportAssetEntries_cons_some (bank : SoundBank) (fs : FS) (c : Cue)
    (cs : List Cue) (src : String) (hreg : bank.cueFiles c = some src)
    (hex : fs.exists src = true) :
    exportAssetEntries bank fs (c :: cs) =
      ⟨arcNameOf c src, .blob ((fs.read src).getD [])⟩ ::
        exportAssetEntries bank fs cs := by
  simp [exportAssetEntries, hreg, hex]

theorem exportAssetEntries_cons_skip (bank : SoundBank) (fs : FS) (c : Cue)
    (cs : List Cue)
    (h : ∀ src, bank.cueFiles c = some src → ¬ fs.exists src = true) :
    exportAssetEntries bank fs (c :: cs) = exportAssetEntries bank fs cs := by
  cases hreg : bank.cueFiles c with
  | none => simp [exportAssetEntries, hreg]
  | some src => simp [exportAssetEntries, hreg, h src hreg]

/-- Looking up an asset member name in the export finds nothing when no
listed cue produced that name. -/
theorem lookupLast_exportAssets_none (bank : SoundBank) (fs : FS) :
    ∀ (cs : List Cue) (n : String),
      (∀ c ∈ cs, ∀ src, bank.cueFiles c = some src → fs.exists src = true →
        n ≠ arcNameOf c src) →
      Archive.lookupLast (exportAssetEntries bank fs cs) n = none := by
  intro cs
  induction cs with
  | nil => intro n _; rfl
  | cons c' cs' ih =>
    intro n hn
    have htail : Archive.lookupLast (exportAssetEntries bank fs cs') n =
        none :=
      ih n (fun c hc src hr he => hn c (by simp [hc]) src hr he)
    by_cases hre : ∃ src, bank.cueFiles c' = some src ∧ fs.exists src = true
    · obtain ⟨src, hreg, hex⟩ := hre
      rw [exportAssetEntries_cons_some bank fs c' cs' src hreg hex]
      simp only [Archive.lookupLast, htail]
      rw [if_neg (fun heq : arcNameOf c' src = n =>
        hn c' (by simp) src hreg hex heq.symm)]
    · rw [exportAssetEntries_cons_skip bank fs c' cs'
        (fun src hreg hex => hre ⟨src, hreg, hex⟩)]
      exact htail

/-- Looking up a registered, existing cue's member name in the export
finds exactly that cue's asset bytes. -/
theorem lookupLast_exportAssets_some (bank : SoundBank) (fs : FS) :
    ∀ (cs : List Cue), cs.Nodup → ∀ c ∈ cs, ∀ src,
      bank.cueFiles c = some src → fs.exists src = true →
      Archive.lookupLast (exportAssetEntries bank fs cs) (arcNameOf c src) =
        some ⟨arcNameOf c src, .blob ((fs.read src).getD [])⟩ := by
  intro cs
  induction cs with
  | nil => intro _ c hc; exact absurd hc (by simp)
  | cons c' cs' ih =>
    intro hnd c hc src hreg hex
    obtain ⟨hnotin, hnd'⟩ := List.nodup_cons.mp hnd
    rcases List.mem_cons.mp hc with rfl | hc'
    · rw [exportAssetEntries_cons_some bank fs c cs' src hreg hex]
      simp only [Archive.lookupLast]
      rw [lookupLast_exportAssets_none bank fs cs' _
        (fun c'' hc'' src'' _ _ =>
          arcNameOf_inj c c'' (fun heq => hnotin (heq ▸ hc'')) src src'')]
      simp
    · have htail := ih hnd' c hc' src hreg hex
      by_cases hre : ∃ src', bank.cueFiles c' = some src' ∧
          fs.exists src' = true
      · obtain ⟨src', hreg', hex'⟩ := hre
        rw [exportAssetEntries_cons_some bank fs c' cs' src' hreg' hex']
        simp only [Archive.lookupLast, htail]
      · rw [exportAssetEntries_cons_skip bank fs c' cs'
          (fun src' hreg' hex' => hre ⟨src', hreg', hex'⟩)]
        exact htail

/-- A registered, existing cue's member name is among the exported asset
entries' names. -/
theorem mem_names_exportAssets (bank : SoundBank) (fs : FS) :
    ∀ (cs : List Cue), ∀ c ∈ cs, ∀ src,
      bank.cueFiles c = some src → fs.exists src = true →
      arcNameOf c src ∈ (exportAssetEntries bank fs cs).map Entry.name := by
  intro cs
  induction cs with
  | nil => intro c hc; exact absurd hc (by simp)
  | cons c' cs' ih =>
    intro c hc src hreg hex
    rcases List.mem_cons.mp hc with rfl | hc'
    · rw [exportAssetEntries_cons_some bank fs c cs' src hreg hex]
      simp
    · have htail := ih c hc' src hreg hex
      by_cases hre : ∃ src', bank.cueFiles c' = some src' ∧
          fs.exists src' = true
      · obtain ⟨src', hreg', hex'⟩ := hre
        rw [exportAssetEntries_cons_some bank fs c' cs' src' hreg' hex']
        simpa using Or.inr (by simpa using htail)
      · rw [exportAssetEntries_cons_skip bank fs c' cs'
          (fun src' hreg' hex' => hre ⟨src', hreg', hex'⟩)]
        exact htail

/-- The exported manifest's cue map binds each listed cue's key to its
`manifestValue` (first lookup wins; the keys are pairwise distinct). -/
theorem jlookup_exportCuePairs (bank : SoundBank) (fs : FS) :
    ∀ (cs : List Cue), ∀ c ∈ cs,
      jlookup (exportCuePairs bank fs cs) c.key =
        some (manifestValue bank fs c) := by
  intro cs
  induction cs with
  | nil => intro c hc; exact absurd hc (by simp)
  | cons c' cs' ih =>
    intro c hc
    by_cases hcc : c' = c
    · subst hcc
      simp only [exportCuePairs, jlookup]
      rw [List.find?_cons_of_pos _ (by simp)]
      rfl
    · have hkey : ¬ (c'.key = c.key) := fun h => hcc (Cue.key_injective _ _ h)
      have hc' : c ∈ cs' := by
        rcases List.mem_cons.mp hc with rfl | h
        · exact absurd rfl hcc
        · exact h
      simp only [exportCuePairs, jlookup]
      rw [List.find?_cons_of_neg _ (by simpa using hkey)]
      exact ih c hc'

/-- The names of the exported asset entries are member names of the full
export (which appends the manifest entry). -/
theorem names_export (bank : SoundBank) (fs : FS) :
    (export_soundbank bank fs).names =
      (exportAssetEntries bank fs cueList).map Entry.name ++
        ["manifest.json"] := by
  simp [export_soundbank, Archive.names]

/-! ## Import loop lemmas -/

/-- Unfolding equation: a cue whose manifest value is a non-empty string
naming a present member is extracted and registered. -/
theorem importCues_cons_extract (ar : Archive) (tdir : String)
    (cfields : List (String × Json)) (c : Cue) (cs : List Cue)
    (bank : SoundBank) (fs : FS) (s : String)
    (hl : jlookup cfields c.key = some (.str s))
    (hcond : s ≠ "" ∧ s ∈ ar.names) :
    importCues ar tdir cfields (c :: cs) bank fs =
      importCues ar tdir cfields cs
        (bank.setCueFile c (some (tdir ++ "/" ++ pathName s)))
        (fs.write (tdir ++ "/" ++ pathName s)
          (((ar.lookupLast s).map (fun e => e.data.rawBytes)).getD [])) := by
  rw [importCues, hl]
  simp only [if_pos hcond]

/-- Unfolding equation: a cue whose manifest value is absent, null, not a
string, the empty string, or a string naming no member is skipped. -/
theorem importCues_cons_skip (ar : Archive) (tdir : String)
    (cfields : List (String × Json)) (c : Cue) (cs : List Cue)
    (bank : SoundBank) (fs : FS)
    (h : ∀ s, jlookup cfields c.key = some (.str s) →
      ¬ (s ≠ "" ∧ s ∈ ar.names)) :
    importCues ar tdir cfields (c :: cs) bank fs =
      importCues ar tdir cfields cs bank fs := by
  cases hl : jlookup cfields c.key with
  | none => rw [importCues, hl]
  | some j =>
    cases j with
    | str s =>
      rw [importCues, hl]
      simp only [if_neg (h s hl)]
    | null => rw [importCues, hl]
    | num n => rw [importCues, hl]
    | obj f => rw [importCues, hl]
    | arr e => rw [importCues, hl]

/-- The import loop never touches a cue outside its list. -/
theorem importCues_cueFiles_frame (ar : Archive) (tdir : String)
    (cfields : List (String × Json)) :
    ∀ (cs : List Cue) (bank : SoundBank) (fs : FS) (c : Cue), c ∉ cs →
      (importCues ar tdir cfields cs bank fs).1.cueFiles c =
        bank.cueFiles c := by
  intro cs
  induction cs with
  | nil => intro bank fs c _; rfl
  | cons c' cs' ih =>
    intro bank fs c hc
    have hne : c ≠ c' := fun h => hc (h ▸ List.mem_cons_self c' cs')
    have hc' : c ∉ cs' := fun h => hc (List.mem_cons_of_mem c' h)
    by_cases hre : ∃ s, jlookup cfields c'.key = some (.str s) ∧
        s ≠ "" ∧ s ∈ ar.names
    · obtain ⟨s, hl, hcond⟩ := hre
      rw [importCues_cons_extract ar tdir cfields c' cs' bank fs s hl hcond]
      rw [ih _ _ c hc']
      simp [SoundBank.setCueFile, hne]
    · rw [importCues_cons_skip ar tdir cfields c' cs' bank fs
        (fun s hl hcond => hre ⟨s, hl, hcond⟩)]
      exact ih _ _ c hc'

/-- The import loop writes only below the extraction destinations of its
listed cues. -/
theorem importCues_fs_frame (ar : Archive) (tdir : String)
    (cfields : List (String × Json)) :
    ∀ (cs : List Cue) (bank : SoundBank) (fs : FS) (p : String),
      (∀ c ∈ cs, ∀ s, jlookup cfields c.key = some (.str s) →
        p ≠ tdir ++ "/" ++ pathName s) →
      (importCues ar tdir cfields cs bank fs).2.read p = fs.read p := by
  intro cs
  induction cs with
  | nil => intro bank fs p _; rfl
  | cons c' cs' ih =>
    intro bank fs p hp
    have hp' : ∀ c ∈ cs', ∀ s, jlookup cfields c.key = some (.str s) →
        p ≠ tdir ++ "/" ++ pathName s :=
      fun c hc => hp c (List.mem_cons_of_mem c' hc)
    by_cases hre : ∃ s, jlookup cfields c'.key = some (.str s) ∧
        s ≠ "" ∧ s ∈ ar.names
    · obtain ⟨s, hl, hcond⟩ := hre
      rw [importCues_cons_extract ar tdir cfields c' cs' bank fs s hl hcond]
      rw [ih _ _ p hp']
      rw [FS.read_write]
      rw [if_neg (hp c' (List.mem_cons_self c' cs') s hl)]
    · rw [importCues_cons_skip ar tdir cfields c' cs' bank fs
        (fun s hl hcond => hre ⟨s, hl, hcond⟩)]
      exact ih _ _ p hp'

/-- Per cue, the import loop either leaves the registration exactly as it
was, or overwrites it with the extraction destination of a non-empty
manifest string naming a present member. -/
theorem importCues_changes (ar : Archive) (tdir : String)
    (cfields : List (String × Json)) :
    ∀ (cs : List Cue) (bank : SoundBank) (fs : FS) (c : Cue),
      (importCues ar tdir cfields cs bank fs).1.cueFiles c =
          bank.cueFiles c ∨
      (∃ s, jlookup cfields c.key = some (.str s) ∧ s ≠ "" ∧ s ∈ ar.names ∧
        (importCues ar tdir cfields cs bank fs).1.cueFiles c =
          some (tdir ++ "/" ++ pathName s)) := by
  intro cs
  induction cs with
  | nil => intro bank fs c; exact Or.inl rfl
  | cons c' cs' ih =>
    intro bank fs c
    by_cases hre : ∃ s, jlookup cfields c'.key = some (.str s) ∧
        s ≠ "" ∧ s ∈ ar.names
    · obtain ⟨s, hl, hcond⟩ := hre
      rw [importCues_cons_extract ar tdir cfields c' cs' bank fs s hl hcond]
      rcases ih (bank.setCueFile c' (some (tdir ++ "/" ++ pathName s)))
          (fs.write (tdir ++ "/" ++ pathName s)
            (((ar.lookupLast s).map (fun e => e.data.rawBytes)).getD [])) c
        with h | h
      · by_cases hcc : c = c'
        · subst hcc
          right
          refine ⟨s, hl, hcond.1, hcond.2, ?_⟩
          rw [h]
          simp [SoundBank.setCueFile]
        · left
          rw [h]
          simp [SoundBank.setCueFile, hcc]
      · exact Or.inr h
    · rw [importCues_cons_skip ar tdir cfields c' cs' bank fs
        (fun s hl hcond => hre ⟨s, hl, hcond⟩)]
      exact ih _ _ c

/-! ## import_soundbank shape lemmas -/

/-- With a well-formed manifest (a JSON object whose `cues` value is an
object, or is absent), the import succeeds and runs the per-cue loop. -/
theorem import_soundbank_ok (bank : SoundBank) (fs : FS) (ar : Archive)
    (stamp nm : String) (mf cf : List (String × Json))
    (hm : ar.lookupLast "manifest.json" = some ⟨nm, .jsonDoc (.obj mf)⟩)
    (hc : (jlookup mf "cues").getD (.obj []) = .obj cf) :
    import_soundbank bank fs ar stamp =
      .ok (importCues ar (bank.baseDir ++ "/soundbank_" ++ stamp) cf cueList
        bank fs) := by
  simp only [import_soundbank, hm, hc]

/-- The manifest value the import loop reads for a cue, under the same
well-formedness. -/
theorem manifestCueRef_eq (ar : Archive) (c : Cue) (nm : String)
    (mf cf : List (String × Json))
    (hm : ar.lookupLast "manifest.json" = some ⟨nm, .jsonDoc (.obj mf)⟩)
    (hc : (jlookup mf "cues").getD (.obj []) = .obj cf) :
    manifestCueRef ar c = jlookup cf c.key := by
  simp only [manifestCueRef, hm, hc]

/-- The manifest's cue map lists exactly the keys of the cues it was built
from, in order. -/
theorem exportCuePairs_keys (bank : SoundBank) (fs : FS) :
    ∀ cs : List Cue,
      (exportCuePairs bank fs cs).map Prod.fst = cs.map Cue.key := by
  intro cs
  induction cs with
  | nil => rfl
  | cons c cs' ih => simp [exportCuePairs, ih]

/-- The cue map the import loop would read back from a fresh export. -/
theorem manifestCueRef_export (bank : SoundBank) (fs : FS) (c : Cue) :
    manifestCueRef (export_soundbank bank fs) c =
      some (manifestValue bank fs c) := by
  rw [manifestCueRef_eq (export_soundbank bank fs) c "manifest.json"
    [("version", .num 1), ("cues", .obj (exportCuePairs bank fs cueList))]
    (exportCuePairs bank fs cueList)
    (lookupLast_export_manifest bank fs) (by rfl)]
  exact jlookup_exportCuePairs bank fs cueList c (by cases c <;> simp [cueList])

/-! ## Round-trip support lemmas -/

/-- A string manifest value arises only from a registered, existing
asset, and is that asset's member name. -/
theorem manifestValue_str (bank : SoundBank) (fs : FS) (c : Cue) (s : String)
    (h : manifestValue bank fs c = .str s) :
    ∃ src, bank.cueFiles c = some src ∧ fs.exists src = true ∧
      s = arcNameOf c src := by
  cases hreg : bank.cueFiles c with
  | none =>
    simp only [manifestValue, hreg] at h
    cases h
  | some src =>
    simp only [manifestValue, hreg] at h
    by_cases hex : fs.exists src = true
    · rw [if_pos hex] at h
      rw [Json.str.injEq] at h
      exact ⟨src, rfl, hex, h.symm⟩
    · rw [if_neg hex] at h
      cases h

/-- A registered, existing asset's manifest value is its member name. -/
theorem manifestValue_of_reg (bank : SoundBank) (fs : FS) (c : Cue)
    (src : String) (hreg : bank.cueFiles c = some src)
    (hex : fs.exists src = true) :
    manifestValue bank fs c = .str (arcNameOf c src) := by
  simp [manifestValue, hreg, hex]

/-- String append is left-cancellative. -/
theorem strAppend_left_cancel (t a b : String) (h : t ++ a = t ++ b) :
    a = b := by
  apply String.ext
  have hd := congrArg String.data h
  rw [String.data_append, String.data_append] at hd
  exact List.append_cancel_left hd

theorem cueList_nodup : cueList.Nodup := by decide

theorem mem_cueList (c : Cue) : c ∈ cueList := by
  cases c <;> simp [cueList]

/-- Reading a registered, existing cue's member from the full export
yields its asset bytes (the manifest entry cannot shadow it). -/
theorem lookupLast_export_arc (bank : SoundBank) (fs : FS) (c : Cue)
    (src : String) (hreg : bank.cueFiles c = some src)
    (hex : fs.exists src = true) :
    (export_soundbank bank fs).lookupLast (arcNameOf c src) =
      some ⟨arcNameOf c src, .blob ((fs.read src).getD [])⟩ := by
  rw [export_soundbank, lookupLast_append]
  have hman : Archive.lookupLast
      [⟨"manifest.json", .jsonDoc (exportManifest bank fs)⟩]
      (arcNameOf c src) = none := by
    simp only [Archive.lookupLast]
    rw [if_neg (fun h => arcNameOf_ne_manifest c src h.symm)]
  rw [hman]
  exact lookupLast_exportAssets_some bank fs cueList cueList_nodup c
    (mem_cueList c) src hreg hex

/-- A registered, existing cue's member name is a member name of the full
export. -/
theorem arc_mem_export_names (bank : SoundBank) (fs : FS) (c : Cue)
    (src : String) (hreg : bank.cueFiles c = some src)
    (hex : fs.exists src = true) :
    arcNameOf c src ∈ (export_soundbank bank fs).names := by
  rw [names_export]
  exact List.mem_append_left _
    (mem_names_exportAssets bank fs cueList c (mem_cueList c) src hreg hex)

/-- Re-importing an export registers, for every source cue with a
registered on-disk asset, the extraction destination, whose bytes read
back equal the source asset's bytes. -/
theorem importCues_roundtrip (bank : SoundBank) (fs : FS) (tdir : String) :
    ∀ (cs : List Cue), cs.Nodup →
      ∀ (bank₂ : SoundBank) (fs₂ : FS), ∀ c ∈ cs, ∀ src,
        bank.cueFiles c = some src → fs.exists src = true →
        (importCues (export_soundbank bank fs) tdir
            (exportCuePairs bank fs cueList) cs bank₂ fs₂).1.cueFiles c =
          some (tdir ++ "/" ++ arcNameOf c src) ∧
        (importCues (export_soundbank bank fs) tdir
            (exportCuePairs bank fs cueList) cs bank₂ fs₂).2.read
          (tdir ++ "/" ++ arcNameOf c src) = fs.read src := by
  intro cs
  induction cs with
  | nil => intro _ bank₂ fs₂ c hc; exact absurd hc (by simp)
  | cons c' cs' ih =>
    intro hnd bank₂ fs₂ c hc src hreg hex
    obtain ⟨hnotin, hnd'⟩ := List.nodup_cons.mp hnd
    by_cases hre' : ∃ src', bank.cueFiles c' = some src' ∧
        fs.exists src' = true
    · obtain ⟨src', hreg', hex'⟩ := hre'
      have hl' : jlookup (exportCuePairs bank fs cueList) c'.key =
          some (.str (arcNameOf c' src')) := by
        rw [jlookup_exportCuePairs bank fs cueList c' (mem_cueList c')]
        rw [manifestValue_of_reg bank fs c' src' hreg' hex']
      have hpn' : pathName (arcNameOf c' src') = arcNameOf c' src' :=
        pathName_of_no_slash _ (no_slash_arcName c' src')
      rw [importCues_cons_extract (export_soundbank bank fs) tdir
        (exportCuePairs bank fs cueList) c' cs' bank₂ fs₂
        (arcNameOf c' src')
        hl'
        ⟨arcNameOf_ne_empty c' src',
         arc_mem_export_names bank fs c' src' hreg' hex'⟩]
      rw [hpn', lookupLast_export_arc bank fs c' src' hreg' hex']
      simp only [Option.map_some', Option.getD_some, EntryData.rawBytes]
      rcases List.mem_cons.mp hc with rfl | hc'
      · have hss : src' = src := Option.some.inj (hreg'.symm.trans hreg)
        subst hss
        constructor
        · rw [importCues_cueFiles_frame _ _ _ cs' _ _ c hnotin]
          simp [SoundBank.setCueFile]
        · rw [importCues_fs_frame _ _ _ cs' _ _ _ ?hfr]
          · rw [FS.read_write, if_pos rfl]
            have hex2 : (fs.read src').isSome = true := hex
            obtain ⟨b0, hb0⟩ := Option.isSome_iff_exists.mp hex2
            rw [hb0]
            rfl
          case hfr =>
            intro c'' hc'' s hl''
            rw [jlookup_exportCuePairs bank fs cueList c''
              (mem_cueList c'')] at hl''
            obtain ⟨src'', hreg'', hex'', rfl⟩ :=
              manifestValue_str bank fs c'' s (Option.some.inj hl'')
            rw [pathName_of_no_slash _ (no_slash_arcName c'' src'')]
            intro heq
            exact arcNameOf_inj c c'' (fun h => hnotin (h ▸ hc'')) src' src''
              (strAppend_left_cancel _ _ _ heq)
      · exact ih hnd' _ _ c hc' src hreg hex
    · have hnull : manifestValue bank fs c' = .null := by
        cases hreg' : bank.cueFiles c' with
        | none => simp [manifestValue, hreg']
        | some s' =>
          have hnex : ¬ fs.exists s' = true := fun hx => hre' ⟨s', hreg', hx⟩
          simp [manifestValue, hreg', hnex]
      have hl' : jlookup (exportCuePairs bank fs cueList) c'.key =
          some .null := by
        rw [jlookup_exportCuePairs bank fs cueList c' (mem_cueList c'),
          hnull]
      rw [importCues_cons_skip (export_soundbank bank fs) tdir
        (exportCuePairs bank fs cueList) c' cs' bank₂ fs₂
        (by
          intro s hl hcond
          rw [hl'] at hl
          exact absurd hl (by simp))]
      rcases List.mem_cons.mp hc with rfl | hc'
      · exact absurd ⟨src, hreg, hex⟩ hre'
      · exact ih hnd' _ _ c hc' src hreg hex

/-! ## Timer engine runs -/

/-- A stopped engine emits nothing and never changes (`_tick` returns
immediately when not running). -/
theorem Engine.run_not_running (e : Engine) (h : e.running = false) :
    ∀ samples, e.run samples = (e, []) := by
  intro samples
  induction samples with
  | nil => rfl
  | cons x xs ih =>
    simp only [Engine.run]
    rw [show e.tickStep x = (e, []) from by simp [Engine.tickStep, h]]
    simp [ih]

/-- A sampling callback observing exactly one whole second decrements a
positive countdown by one, finishing when it reaches zero. -/
theorem tickStep_one (d t x : Nat) (h1 : (x - t) / 1000 = 1) :
    Engine.tickStep (Engine.mk ((d + 1 : Nat) : Int) true t true) x =
      if d = 0 then (Engine.mk 0 false x false, [Ev.tick 0, Ev.finished])
      else (Engine.mk (d : Int) true x true, [Ev.tick (d : Int)]) := by
  by_cases hd : d = 0
  · subst hd
    simp [Engine.tickStep, h1]
  · have hpos : ¬ ((d : Int) ≤ 0) := by
      have : 0 < d := Nat.pos_of_ne_zero hd
      omega
    simp [Engine.tickStep, h1, hd, hpos]

/-- An engine running a countdown of `d ≥ 1` whole seconds, sampled so
that each callback observes at most one whole elapsed second and at least
`d` callbacks observe one, emits exactly the ticks `d-1, …, 0` followed by
one completion event and then stops (so no events follow). -/
theorem run_countdown :
    ∀ (samples : List Nat) (d n t : Nat), 1 ≤ d →
      goodCount t samples = some n → d ≤ n →
      ∃ last, Engine.run (Engine.mk (d : Int) true t true) samples =
        (Engine.mk 0 false last false, ticksDown d ++ [Ev.finished]) := by
  intro samples
  induction samples with
  | nil =>
    intro d n t hd hg hdn
    simp only [goodCount, Option.some.injEq] at hg
    omega
  | cons x xs ih =>
    intro d n t hd hg hdn
    simp only [goodCount] at hg
    by_cases h0 : (x - t) / 1000 = 0
    · rw [if_pos h0] at hg
      obtain ⟨last, hrun⟩ := ih d n t hd hg hdn
      refine ⟨last, ?_⟩
      simp only [Engine.run]
      rw [show Engine.tickStep (Engine.mk (d : Int) true t true) x =
            (Engine.mk (d : Int) true t true, []) from by
          simp [Engine.tickStep, h0]]
      simp [hrun]
    · rw [if_neg h0] at hg
      by_cases h1 : (x - t) / 1000 = 1
      · rw [if_pos h1] at hg
        obtain ⟨m, hm, hmn⟩ : ∃ m, goodCount x xs = some m ∧ m + 1 = n := by
          cases hgc : goodCount x xs with
          | none => rw [hgc] at hg; simp at hg
          | some m =>
            rw [hgc] at hg
            simp only [Option.map_some', Option.some.injEq] at hg
            exact ⟨m, rfl, hg⟩
        obtain ⟨d', rfl⟩ : ∃ d'', d = d'' + 1 := ⟨d - 1, by omega⟩
        by_cases hd' : d' = 0
        · subst hd'
          refine ⟨x, ?_⟩
          simp only [Engine.run]
          rw [tickStep_one 0 t x h1]
          rw [if_pos rfl]
          rw [Engine.run_not_running _ rfl xs]
          simp [ticksDown]
        · obtain ⟨last, hrun⟩ := ih d' m x (by omega) hm (by omega)
          refine ⟨last, ?_⟩
          simp only [Engine.run]
          rw [tickStep_one d' t x h1]
          rw [if_neg hd']
          rw [hrun]
          simp [ticksDown]
      · rw [if_neg h1] at hg
        exact absurd hg (by simp)

/-- Whole-second superadditivity: summing the whole seconds of two
contiguous intervals never exceeds the whole seconds of their union. -/
theorem div1000_le_of_chain (a b c : Nat) (hab : a ≤ b) (hbc : b ≤ c) :
    (b - a) / 1000 + (c - b) / 1000 ≤ (c - a) / 1000 := by
  rw [Nat.le_div_iff_mul_le (by norm_num)]
  have h1 : (b - a) / 1000 * 1000 ≤ b - a := Nat.div_mul_le_self _ _
  have h2 : (c - b) / 1000 * 1000 ≤ c - b := Nat.div_mul_le_self _ _
  omega

/-- Over any monotone sampling sequence bounded by `T`, the total
decrement of `remaining` never exceeds the whole seconds between the
engine's `_last` timestamp and `T` (the countdown can lag, never race). -/
theorem run_decrement_le (samples : List Nat) :
    ∀ (e : Engine) (T : Nat),
      List.Pairwise (· ≤ ·) (e.last :: samples) →
      (∀ x ∈ samples, x ≤ T) →
      e.remaining - (e.run samples).1.remaining ≤
        (((T - e.last) / 1000 : Nat) : Int) := by
  induction samples with
  | nil =>
    intro e T _ _
    simp only [Engine.run, sub_self]
    positivity
  | cons x xs ih =>
    intro e T hpair hT
    have hlast_x : e.last ≤ x := (List.pairwise_cons.mp hpair).1 x (by simp)
    have hxT : x ≤ T := hT x (by simp)
    have hpair_x : List.Pairwise (· ≤ ·) (x :: xs) :=
      (List.pairwise_cons.mp hpair).2
    have hpair_e : List.Pairwise (· ≤ ·) (e.last :: xs) :=
      hpair.sublist (by
        refine List.cons_sublist_cons.mpr ?_
        exact List.sublist_cons_self x xs)
    have hT_xs : ∀ y ∈ xs, y ≤ T := fun y hy => hT y (by simp [hy])
    simp only [Engine.run]
    by_cases hrun : e.running
    · by_cases h0 : (x - e.last) / 1000 = 0
      · rw [show e.tickStep x = (e, []) from by simp [Engine.tickStep, h0]]
        have := ih e T hpair_e hT_xs
        simpa using this
      · -- a whole-second decrement: `_last` becomes `x`
        have key : ∀ e' : Engine, e'.last = x →
            e'.remaining = e.remaining - (((x - e.last) / 1000 : Nat) : Int) →
            e.remaining - (e'.run xs).1.remaining ≤
              (((T - e.last) / 1000 : Nat) : Int) := by
          intro e' hl hr
          have hbound := ih e' T (by rw [hl]; exact hpair_x) hT_xs
          have hdiv := div1000_le_of_chain e.last x T hlast_x hxT
          rw [hl] at hbound
          omega
        rcases hle : decide (e.remaining - (((x - e.last) / 1000 : Nat) : Int) ≤ 0) with _ | _
        · have hle' : ¬ e.remaining - (((x - e.last) / 1000 : Nat) : Int) ≤ 0 := by
            simpa using hle
          rw [show e.tickStep x =
                (Engine.mk (e.remaining - (((x - e.last) / 1000 : Nat) : Int))
                  true x true,
                 [Ev.tick (e.remaining - (((x - e.last) / 1000 : Nat) : Int))])
              from by
                simp [Engine.tickStep, hrun, h0, hle']
                omega]
          exact key _ rfl rfl
        · have hle' : e.remaining - (((x - e.last) / 1000 : Nat) : Int) ≤ 0 := by
            simpa using hle
          rw [show e.tickStep x =
                (Engine.mk (e.remaining - (((x - e.last) / 1000 : Nat) : Int))
                  false x false,
                 [Ev.tick (e.remaining - (((x - e.last) / 1000 : Nat) : Int)),
                  Ev.finished])
              from by
                simp [Engine.tickStep, hrun, h0, hle']
                omega]
          exact key _ rfl rfl
    · rw [show e.tickStep x = (e, []) from by
        simp [Engine.tickStep, hrun]]
      have := ih e T hpair_e hT_xs
      simpa using this

/-! # Claims -/

/-- C1 (counterexample): the claim includes `d = 0`, for which it predicts
the immediate `tick 0` and then completion with no further ticks; the code
instead decrements past zero on the next sampling callback and emits
`tick (-1)` before the completion event. -/
theorem C1_counterexample :
    (startRun 0 0 [1000]).2 = [Ev.tick 0, Ev.tick (-1), Ev.finished] ∧
    (startRun 0 0 [1000]).2 ≠ [Ev.tick 0, Ev.finished] := by
  exact ⟨by decide, by decide⟩

/-- C1 (amended): `start(d)` immediately emits `tick d`.  For `d ≥ 1`,
an uninterrupted run sampled so that each callback observes at most one
whole elapsed second (with at least `d` callbacks observing one) then
emits exactly the `d` ticks `d-1, …, 0` followed by exactly one completion
event, after which the engine is stopped and emits nothing more.  For
`d = 0`, the first callback observing `k ≥ 1` whole seconds emits one
extra tick with negative value `-k` before the single completion event. -/
theorem C1_amended :
    (∀ (d t0 n : Nat) (samples : List Nat),
      1 ≤ d → goodCount t0 samples = some n → d ≤ n →
      (startRun (d : Int) t0 samples).2 =
          Ev.tick (d : Int) :: (ticksDown d ++ [Ev.finished]) ∧
        (startRun (d : Int) t0 samples).1.running = false) ∧
    (∀ (t0 x : Nat) (samples : List Nat),
      1 ≤ (x - t0) / 1000 →
      (startRun 0 t0 (x :: samples)).2 =
        [Ev.tick 0, Ev.tick (-(((x - t0) / 1000 : Nat) : Int)),
         Ev.finished]) := by
  constructor
  · intro d t0 n samples hd hg hdn
    obtain ⟨last, hrun⟩ := run_countdown samples d n t0 hd hg hdn
    constructor
    · simp only [startRun, Engine.start]
      rw [hrun]
      simp
    · simp only [startRun, Engine.start]
      rw [hrun]
  · intro t0 x samples hk
    have h0 : ¬ (x - t0) / 1000 = 0 := by omega
    have hneg : (0 : Int) - (((x - t0) / 1000 : Nat) : Int) ≤ 0 := by
      omega
    simp only [startRun, Engine.start, Engine.run]
    rw [show Engine.tickStep (Engine.mk (0 : Int) true t0 true) x =
          (Engine.mk (-(((x - t0) / 1000 : Nat) : Int)) false x false,
           [Ev.tick (-(((x - t0) / 1000 : Nat) : Int)), Ev.finished])
        from by
          simp only [Engine.tickStep]
          rw [if_pos trivial, if_neg h0, if_pos hneg]
          norm_num]
    rw [Engine.run_not_running _ rfl samples]
    simp

/-- C1 (witness): the amended claim at `d = 2`, sampled once per second
for three seconds: events are `tick 2, tick 1, tick 0, completion`; and
the `d = 0` part at a one-second first sample: `tick 0, tick -1,
completion`. -/
theorem C1_witness :
    (startRun ((2 : Nat) : Int) 0 [1000, 2000, 3000]).2 =
      [Ev.tick 2, Ev.tick 1, Ev.tick 0, Ev.finished] ∧
    (startRun 0 5000 (6000 :: [])).2 =
      [Ev.tick 0, Ev.tick (-1), Ev.finished] := by
  constructor
  · have h := (C1_amended.1 2 0 3 [1000, 2000, 3000] (by decide) (by decide)
      (by decide)).1
    rw [h]
    decide
  · have h := C1_amended.2 5000 6000 [] (by decide)
    rw [h]
    decide

/-- C2 (counterexample): the claim says no fractional elapsed time is lost
across samples.  Starting a 3-second countdown at `t = 0` and sampling at
1.5 s and 3.0 s, three whole seconds have elapsed but the code decremented
only twice (remaining is 1, not 0): each decrement sets `_last = now`,
discarding that interval's fractional 0.5 s. -/
theorem C2_counterexample :
    (startRun 3 0 [1500, 3000]).1.remaining = 1 ∧
    (3000 - 0) / 1000 = 3 ∧
    (1 : Int) ≠ 3 - 3 := by
  exact ⟨by decide, by decide, by decide⟩

/-- C2 (amended): each sampling callback decrements `remaining` only by
the whole seconds elapsed since the last recorded sample, and records a
new last-sample timestamp only when at least one whole second elapsed —
but it records the raw sample time, discarding that interval's fractional
part, so the countdown can lag real time (as the counterexample shows),
while never decrementing faster than the whole seconds actually elapsed:
over any monotone run bounded by `T`, the total decrement is at most the
whole seconds between the initial `_last` and `T`. -/
theorem C2_amended :
    (∀ (e : Engine) (now : Nat), e.running = true →
      1 ≤ (now - e.last) / 1000 →
      (e.tickStep now).1.remaining =
          e.remaining - (((now - e.last) / 1000 : Nat) : Int) ∧
        (e.tickStep now).1.last = now) ∧
    (∀ (e : Engine) (now : Nat), (now - e.last) / 1000 = 0 →
      e.tickStep now = (e, [])) ∧
    (∀ (e : Engine) (T : Nat) (samples : List Nat),
      List.Pairwise (· ≤ ·) (e.last :: samples) →
      (∀ x ∈ samples, x ≤ T) →
      e.remaining - (e.run samples).1.remaining ≤
        (((T - e.last) / 1000 : Nat) : Int)) := by
  refine ⟨?_, ?_, ?_⟩
  · intro e now hrun hdt
    have h0 : ¬ (now - e.last) / 1000 = 0 := by omega
    simp only [Engine.tickStep]
    rw [if_pos hrun, if_neg h0]
    split
    · exact ⟨rfl, rfl⟩
    · exact ⟨rfl, rfl⟩
  · intro e now hdt
    simp only [Engine.tickStep]
    by_cases hrun : e.running
    · rw [if_pos hrun, if_pos hdt]
    · rw [if_neg hrun]
  · intro e T samples hpair hT
    exact run_decrement_le samples e T hpair hT

/-- C2 (witness): the amended claim at a concrete engine: a 1.5 s
observation decrements a 10-second countdown by exactly one second and
records `_last = 1500`; a 0.9 s observation is a perfect no-op; and over
the samples `1500, 3000` the total decrement (2) is at most the whole
seconds elapsed up to `T = 3000` (3). -/
theorem C2_witness :
    ((Engine.mk 10 true 0 true).tickStep 1500).1.remaining = 9 ∧
    ((Engine.mk 10 true 0 true).tickStep 1500).1.last = 1500 ∧
    (Engine.mk 10 true 0 true).tickStep 900 = (Engine.mk 10 true 0 true, []) ∧
    (10 : Int) - ((Engine.mk 10 true 0 true).run [1500, 3000]).1.remaining ≤
      (((3000 - 0) / 1000 : Nat) : Int) := by
  have h1 := C2_amended.1 (Engine.mk 10 true 0 true) 1500 rfl (by decide)
  have h2 := C2_amended.2.1 (Engine.mk 10 true 0 true) 900 (by decide)
  have h3 := C2_amended.2.2 (Engine.mk 10 true 0 true) 3000 [1500, 3000]
    (by decide) (by decide)
  refine ⟨?_, ?_, h2, ?_⟩
  · rw [h1.1]
    decide
  · exact h1.2
  · exact h3

/-- C5: the export always writes the manifest (even with all cues empty)
as the archive's last entry, a version-1 JSON object whose `cues` map
lists all six fixed cue identifiers in the fixed enumeration order; a
cue's value is the member name `<cue><original-extension-lowercased>`
exactly when a registered asset exists on disk, and null otherwise; and
every non-null value names an entry actually written into the container.
The characterizing equations are functional in the registered assets, so
the manifest content is identical across runs. -/
theorem C5_theorem (bank : SoundBank) (fs : FS) :
    Archive.lookupLast (export_soundbank bank fs) "manifest.json" =
        some ⟨"manifest.json",
          .jsonDoc (.obj [("version", .num 1),
            ("cues", .obj (exportCuePairs bank fs cueList))])⟩ ∧
    (exportCuePairs bank fs cueList).map Prod.fst =
        ["session_start", "pose_start", "five_min", "one_min",
         "thirty_sec", "over"] ∧
    (∀ (c : Cue) (s : String),
      manifestCueRef (export_soundbank bank fs) c = some (.str s) ↔
        ∃ src, bank.cueFiles c = some src ∧ fs.exists src = true ∧
          s = arcNameOf c src) ∧
    (∀ c : Cue,
      manifestCueRef (export_soundbank bank fs) c = some .null ↔
        ¬ ∃ src, bank.cueFiles c = some src ∧ fs.exists src = true) ∧
    (∀ (c : Cue) (s : String),
      manifestCueRef (export_soundbank bank fs) c = some (.str s) →
        s ∈ (export_soundbank bank fs).names) := by
  refine ⟨lookupLast_export_manifest bank fs, ?_, ?_, ?_, ?_⟩
  · rw [exportCuePairs_keys]
    rfl
  · intro c s
    rw [manifestCueRef_export]
    simp only [Option.some.injEq]
    cases hreg : bank.cueFiles c with
    | none =>
      simp only [manifestValue, hreg]
      constructor
      · intro h
        exact absurd h (by simp)
      · rintro ⟨src, hsrc, -⟩
        exact absurd hsrc (by simp)
    | some src =>
      by_cases hex : fs.exists src = true
      · simp only [manifestValue, hreg, hex, if_true]
        constructor
        · intro h
          exact ⟨src, rfl, hex, (by simpa using h.symm)⟩
        · rintro ⟨src', hsrc', -, rfl⟩
          rw [Option.some.injEq] at hsrc'
          rw [hsrc']
      · simp only [manifestValue, hreg, hex, if_false]
        constructor
        · intro h
          exact absurd h (by simp)
        · rintro ⟨src', hsrc', hex', -⟩
          rw [Option.some.injEq] at hsrc'
          exact absurd (hsrc' ▸ hex') hex
  · intro c
    rw [manifestCueRef_export]
    simp only [Option.some.injEq]
    cases hreg : bank.cueFiles c with
    | none =>
      simp only [manifestValue, hreg]
      constructor
      · rintro - ⟨src, hsrc, -⟩
        exact absurd hsrc (by simp)
      · intro _
        trivial
    | some src =>
      by_cases hex : fs.exists src = true
      · simp only [manifestValue, hreg, hex, if_true]
        constructor
        · intro h
          exact absurd h (by simp)
        · intro h
          exact absurd ⟨src, rfl, hex⟩ h
      · simp only [manifestValue, hreg, hex, if_false]
        constructor
        · rintro - ⟨src', hsrc', hex'⟩
          rw [Option.some.injEq] at hsrc'
          exact absurd (hsrc' ▸ hex') hex
        · intro _
          rfl
  · intro c s h
    rw [manifestCueRef_export] at h
    simp only [Option.some.injEq] at h
    have : ∃ src, bank.cueFiles c = some src ∧ fs.exists src = true ∧
        s = arcNameOf c src := by
      cases hreg : bank.cueFiles c with
      | none => rw [manifestValue, hreg] at h; exact absurd h.symm (by simp)
      | some src =>
        by_cases hex : fs.exists src = true
        · simp only [manifestValue, hreg] at h
          rw [if_pos hex] at h
          exact ⟨src, rfl, hex, by simpa using h.symm⟩
        · simp only [manifestValue, hreg] at h
          rw [if_neg hex] at h
          exact absurd h.symm (by simp)
    obtain ⟨src, hreg, hex, rfl⟩ := this
    rw [names_export]
    exact List.mem_append_left _
      (mem_names_exportAssets bank fs cueList c
        (by cases c <;> simp [cueList]) src hreg hex)

/-- A bank with one registered asset whose file exists, used to witness
the export/import claims at a concrete state. -/
def bankW : SoundBank :=
  { baseDir := "/home/user/.live_drawing_timer/sounds",
    cueFiles := fun c => if c = Cue.over then some "/tmp/ding.WAV" else none }

/-- The filesystem for `bankW`: the registered file exists. -/
def fsW : FS := [("/tmp/ding.WAV", [1, 2, 3])]

/-- C5 (witness): exporting `bankW` yields manifest value
`"over.wav"` (lower-cased extension) for the registered cue, which names a
container entry, and null for an unregistered cue. -/
theorem C5_witness :
    manifestCueRef (export_soundbank bankW fsW) Cue.over =
        some (.str "over.wav") ∧
    "over.wav" ∈ (export_soundbank bankW fsW).names ∧
    manifestCueRef (export_soundbank bankW fsW) Cue.oneMin =
        some .null := by
  have h := C5_theorem bankW fsW
  have h1 : manifestCueRef (export_soundbank bankW fsW) Cue.over =
      some (.str "over.wav") :=
    (h.2.2.1 Cue.over "over.wav").mpr
      ⟨"/tmp/ding.WAV", rfl, rfl, by rfl⟩
  refine ⟨h1, h.2.2.2.2 Cue.over "over.wav" h1, ?_⟩
  refine (h.2.2.2.1 Cue.oneMin).mpr ?_
  rintro ⟨src, hsrc, -⟩
  rw [show bankW.cueFiles Cue.oneMin = none from rfl] at hsrc
  exact absurd hsrc (by simp)

/-- C8: a successful import leaves a cue's prior registration unchanged
when its manifest entry is absent, null, or a string naming no present
member; it only ever overwrites a cue whose entry is a string naming a
present container entry (with the extraction destination); and it never
clears a registration. -/
theorem C8_theorem (bank : SoundBank) (fs : FS) (ar : Archive)
    (stamp : String) (b' : SoundBank) (fs' : FS) (c : Cue)
    (h : import_soundbank bank fs ar stamp = .ok (b', fs')) :
    (manifestCueRef ar c = none → b'.cueFiles c = bank.cueFiles c) ∧
    (manifestCueRef ar c = some .null →
      b'.cueFiles c = bank.cueFiles c) ∧
    (∀ s, manifestCueRef ar c = some (.str s) → s ∉ ar.names →
      b'.cueFiles c = bank.cueFiles c) ∧
    (bank.cueFiles c ≠ none → b'.cueFiles c ≠ none) ∧
    (b'.cueFiles c ≠ bank.cueFiles c →
      ∃ s, manifestCueRef ar c = some (.str s) ∧ s ∈ ar.names) := by
  cases hml : ar.lookupLast "manifest.json" with
  | none => simp [import_soundbank, hml] at h
  | some e =>
    obtain ⟨nm, dat⟩ := e
    cases dat with
    | blob b => simp [import_soundbank, hml] at h
    | jsonDoc m =>
      cases m with
      | obj mf =>
        cases hgd : (jlookup mf "cues").getD (.obj []) with
        | obj cf =>
          rw [import_soundbank_ok bank fs ar stamp nm mf cf hml hgd] at h
          rw [Except.ok.injEq] at h
          have hb : b' = (importCues ar
              (bank.baseDir ++ "/soundbank_" ++ stamp) cf cueList
              bank fs).1 := (congrArg Prod.fst h).symm
          have hmcr := manifestCueRef_eq ar c nm mf cf hml hgd
          rcases importCues_changes ar
              (bank.baseDir ++ "/soundbank_" ++ stamp) cf cueList bank fs c
            with hsame | ⟨s, hl, hne, hmem, hset⟩
          · rw [← hb] at hsame
            exact ⟨fun _ => hsame, fun _ => hsame, fun _ _ _ => hsame,
              fun hn => hsame ▸ hn, fun hch => absurd hsame hch⟩
          · rw [← hb] at hset
            refine ⟨?_, ?_, ?_, ?_, ?_⟩
            · intro h0
              rw [hmcr, hl] at h0
              exact absurd h0 (by simp)
            · intro h0
              rw [hmcr, hl] at h0
              exact absurd h0 (by simp)
            · intro s' h0 hnotmem
              rw [hmcr, hl] at h0
              rw [Option.some.injEq, Json.str.injEq] at h0
              exact absurd (h0 ▸ hmem) hnotmem
            · intro _
              rw [hset]
              simp
            · intro _
              exact ⟨s, hmcr ▸ hl, hmem⟩
        | null => simp [import_soundbank, hml, hgd] at h
        | num n => simp [import_soundbank, hml, hgd] at h
        | str s => simp [import_soundbank, hml, hgd] at h
        | arr es => simp [import_soundbank, hml, hgd] at h
      | null => simp [import_soundbank, hml] at h
      | num n => simp [import_soundbank, hml] at h
      | str s => simp [import_soundbank, hml] at h
      | arr es => simp [import_soundbank, hml] at h

/-- An archive whose manifest registers `session_start.wav` (present) and
leaves `five_min` null, used to witness the import frame claims. -/
def arW : Archive :=
  [⟨"session_start.wav", .blob [9, 9, 9]⟩,
   ⟨"manifest.json", .jsonDoc (.obj
     [("version", .num 1),
      ("cues", .obj [("session_start", .str "session_start.wav"),
                     ("five_min", .null)])])⟩]

/-- A bank holding a prior registration for `five_min`, the cue `arW`
leaves null. -/
def bankW8 : SoundBank :=
  { baseDir := "/base",
    cueFiles := fun c => if c = Cue.fiveMin then some "/old/five.wav"
      else none }

/-- C8 (witness): importing `arW` into `bankW8` succeeds, overwrites
`session_start`, and leaves the prior `five_min` registration untouched. -/
theorem C8_witness :
    (importCues arW "/base/soundbank_20240101_000000"
        [("session_start", .str "session_start.wav"), ("five_min", .null)]
        cueList bankW8 []).1.cueFiles Cue.fiveMin = some "/old/five.wav" ∧
    (importCues arW "/base/soundbank_20240101_000000"
        [("session_start", .str "session_start.wav"), ("five_min", .null)]
        cueList bankW8 []).1.cueFiles Cue.sessionStart =
      some "/base/soundbank_20240101_000000/session_start.wav" := by
  have hok : import_soundbank bankW8 [] arW "20240101_000000" =
      .ok (importCues arW "/base/soundbank_20240101_000000"
        [("session_start", .str "session_start.wav"), ("five_min", .null)]
        cueList bankW8 []) := by rfl
  have h := C8_theorem bankW8 [] arW "20240101_000000" _ _ Cue.fiveMin hok
  have hfive := h.2.1 (by rfl)
  constructor
  · exact hfive.trans (by rfl)
  · rfl

/-- C4: exporting any bank and importing the archive into another bank
(in particular a fresh one) succeeds, and for every cue that had a
registered asset existing on disk at export time, the target bank ends up
with a registered asset whose bytes equal the original asset's bytes. -/
theorem C4_theorem (bank : SoundBank) (fs : FS) (bank₂ : SoundBank)
    (fs₂ : FS) (stamp : String) :
    ∃ b' fs', import_soundbank bank₂ fs₂ (export_soundbank bank fs) stamp =
        .ok (b', fs') ∧
      ∀ (c : Cue) (src : String), bank.cueFiles c = some src →
        fs.exists src = true →
        b'.cueFiles c =
            some (bank₂.baseDir ++ "/soundbank_" ++ stamp ++ "/" ++
              arcNameOf c src) ∧
        fs'.read (bank₂.baseDir ++ "/soundbank_" ++ stamp ++ "/" ++
            arcNameOf c src) = fs.read src := by
  have hok := import_soundbank_ok bank₂ fs₂ (export_soundbank bank fs) stamp
    "manifest.json"
    [("version", .num 1), ("cues", .obj (exportCuePairs bank fs cueList))]
    (exportCuePairs bank fs cueList)
    (lookupLast_export_manifest bank fs) (by rfl)
  refine ⟨_, _, hok, ?_⟩
  intro c src hreg hex
  exact importCues_roundtrip bank fs
    (bank₂.baseDir ++ "/soundbank_" ++ stamp) cueList cueList_nodup
    bank₂ fs₂ c (mem_cueList c) src hreg hex

/-- A fresh bank used as the import target in the round-trip witness. -/
def freshBankW : SoundBank :=
  { baseDir := "/base", cueFiles := fun _ => none }

/-- C4 (witness): exporting `bankW` (cue `over` registered to an existing
`.WAV` file with bytes `[1, 2, 3]`) and importing into the fresh bank
registers `/base/soundbank_20240101_000000/over.wav`, whose read-back
bytes are `[1, 2, 3]`. -/
theorem C4_witness :
    (import_soundbank freshBankW [] (export_soundbank bankW fsW)
        "20240101_000000").map (fun p => p.1.cueFiles Cue.over) =
      .ok (some "/base/soundbank_20240101_000000/over.wav") ∧
    (import_soundbank freshBankW [] (export_soundbank bankW fsW)
        "20240101_000000").map
        (fun p => p.2.read "/base/soundbank_20240101_000000/over.wav") =
      .ok (some [1, 2, 3]) := by
  obtain ⟨b', fs', hok, hprop⟩ := C4_theorem bankW fsW freshBankW []
    "20240101_000000"
  obtain ⟨hcue, hread⟩ := hprop Cue.over "/tmp/ding.WAV" rfl rfl
  rw [hok]
  constructor
  · show Except.ok (b'.cueFiles Cue.over) = _
    rw [hcue]
    rfl
  · show Except.ok
        (fs'.read "/base/soundbank_20240101_000000/over.wav") = _
    rw [show "/base/soundbank_20240101_000000/over.wav" =
        freshBankW.baseDir ++ "/soundbank_" ++ "20240101_000000" ++ "/" ++
          arcNameOf Cue.over "/tmp/ding.WAV" from rfl, hread]
    rfl

/-- A bank with nothing registered. -/
def emptyBank : SoundBank :=
  { baseDir := "/base", cueFiles := fun _ => none }

/-- An archive whose manifest references a member that is not present in
the container. -/
def arMissingRef : Archive :=
  [⟨"manifest.json", .jsonDoc (.obj
    [("version", .num 1),
     ("cues", .obj [("session_start", .str "session_start.wav")])])⟩]

/-- C3 (counterexample): the claim requires the import to fail when a
manifest entry references a filename not present in the container; the
code instead skips the entry silently — the import of `arMissingRef`
raises nothing and returns with no registration applied at all. -/
theorem C3_counterexample :
    import_soundbank emptyBank [] arMissingRef "20240101_000000" =
      .ok (emptyBank, ([] : FS)) ∧
    "session_start.wav" ∉ arMissingRef.names := by
  exact ⟨rfl, by decide⟩

/-- C3 (amended): the import fails only before any extraction, with
`KeyError` when `manifest.json` is absent, `JSONDecodeError` when the
manifest bytes are not JSON, and `AttributeError` when the manifest
document (or its non-absent `cues` value) is not a JSON object; a
manifest entry referencing a filename not present in the container is NOT
an error — it is silently skipped, the import still succeeds, and that
cue's prior registration is left unchanged.  (No dedicated
`ArchiveFormatError` exists in the code.) -/
theorem C3_amended (bank : SoundBank) (fs : FS) (ar : Archive)
    (stamp : String) :
    (ar.lookupLast "manifest.json" = none →
      import_soundbank bank fs ar stamp = .error .keyError) ∧
    (∀ nm b, ar.lookupLast "manifest.json" = some ⟨nm, .blob b⟩ →
      import_soundbank bank fs ar stamp = .error .jsonDecodeError) ∧
    (∀ nm j, ar.lookupLast "manifest.json" = some ⟨nm, .jsonDoc j⟩ →
      (∀ mf, j ≠ .obj mf) →
      import_soundbank bank fs ar stamp = .error .attributeError) ∧
    (∀ nm mf, ar.lookupLast "manifest.json" =
        some ⟨nm, .jsonDoc (.obj mf)⟩ →
      (∀ cf, (jlookup mf "cues").getD (.obj []) ≠ .obj cf) →
      import_soundbank bank fs ar stamp = .error .attributeError) ∧
    (∀ nm mf cf, ar.lookupLast "manifest.json" =
        some ⟨nm, .jsonDoc (.obj mf)⟩ →
      (jlookup mf "cues").getD (.obj []) = .obj cf →
      import_soundbank bank fs ar stamp =
        .ok (importCues ar (bank.baseDir ++ "/soundbank_" ++ stamp) cf
          cueList bank fs)) ∧
    (∀ nm mf cf (c : Cue) (s : String) b' fs',
      ar.lookupLast "manifest.json" = some ⟨nm, .jsonDoc (.obj mf)⟩ →
      (jlookup mf "cues").getD (.obj []) = .obj cf →
      import_soundbank bank fs ar stamp = .ok (b', fs') →
      jlookup cf c.key = some (.str s) → s ∉ ar.names →
      b'.cueFiles c = bank.cueFiles c) := by
  refine ⟨?_, ?_, ?_, ?_, ?_, ?_⟩
  · intro h
    simp [import_soundbank, h]
  · intro nm b h
    simp [import_soundbank, h]
  · intro nm j h hobj
    cases j with
    | obj mf => exact absurd rfl (hobj mf)
    | null => simp [import_soundbank, h]
    | num n => simp [import_soundbank, h]
    | str s => simp [import_soundbank, h]
    | arr es => simp [import_soundbank, h]
  · intro nm mf h hncf
    cases hgd : (jlookup mf "cues").getD (.obj []) with
    | obj cf => exact absurd hgd (hncf cf)
    | null => simp [import_soundbank, h, hgd]
    | num n => simp [import_soundbank, h, hgd]
    | str s => simp [import_soundbank, h, hgd]
    | arr es => simp [import_soundbank, h, hgd]
  · intro nm mf cf h hgd
    exact import_soundbank_ok bank fs ar stamp nm mf cf h hgd
  · intro nm mf cf c s b' fs' h hgd hok hl hnm
    rw [import_soundbank_ok bank fs ar stamp nm mf cf h hgd] at hok
    rw [Except.ok.injEq] at hok
    have hb : b' = (importCues ar (bank.baseDir ++ "/soundbank_" ++ stamp)
        cf cueList bank fs).1 := (congrArg Prod.fst hok).symm
    rcases importCues_changes ar (bank.baseDir ++ "/soundbank_" ++ stamp)
        cf cueList bank fs c with hsame | ⟨s', hl', hne', hmem', hset'⟩
    · rw [hb]
      exact hsame
    · rw [hl] at hl'
      rw [Option.some.injEq, Json.str.injEq] at hl'
      exact absurd (hl' ▸ hmem') hnm

/-- C3 (witness): the amended claim at concrete archives — an empty
container raises `KeyError`, a non-JSON manifest raises
`JSONDecodeError`, a JSON-array manifest raises `AttributeError`, and the
dangling-reference archive imports successfully with `session_start`'s
registration untouched. -/
theorem C3_witness :
    import_soundbank emptyBank [] [] "20240101_000000" =
        .error .keyError ∧
    import_soundbank emptyBank [] [⟨"manifest.json", .blob [1, 2]⟩]
        "20240101_000000" = .error .jsonDecodeError ∧
    import_soundbank emptyBank [] [⟨"manifest.json", .jsonDoc (.arr [])⟩]
        "20240101_000000" = .error .attributeError ∧
    (import_soundbank emptyBank [] arMissingRef "20240101_000000").isOk =
        true ∧
    emptyBank.cueFiles Cue.sessionStart = none := by
  have h1 := (C3_amended emptyBank [] [] "20240101_000000").1 rfl
  have h2 := (C3_amended emptyBank [] [⟨"manifest.json", .blob [1, 2]⟩]
    "20240101_000000").2.1 "manifest.json" [1, 2] rfl
  have h3 := (C3_amended emptyBank []
    [⟨"manifest.json", .jsonDoc (.arr [])⟩] "20240101_000000").2.2.1
    "manifest.json" (.arr []) rfl (by intro mf h; cases h)
  have h5 := (C3_amended emptyBank [] arMissingRef "20240101_000000").2.2.2.2.1
    "manifest.json" [("version", .num 1),
      ("cues", .obj [("session_start", .str "session_start.wav")])]
    [("session_start", .str "session_start.wav")] rfl rfl
  have h6 := (C3_amended emptyBank [] arMissingRef "20240101_000000").2.2.2.2.2
    "manifest.json" [("version", .num 1),
      ("cues", .obj [("session_start", .str "session_start.wav")])]
    [("session_start", .str "session_start.wav")] Cue.sessionStart
    "session_start.wav" _ _ rfl rfl h5 rfl (by decide)
  refine ⟨h1, h2, h3, ?_, h6.trans rfl⟩
  rw [h5]
  rfl

/-- C7 (counterexample): the claim states that 59 seconds renders as
`"0:59"` and a 1 minute 30 second pose is labelled `"1:30"`; the code's
`{m:02d}` format pads the leading minutes field, rendering `"00:59"` and
`"01:30"` instead. -/
theorem C7_counterexample :
    seconds_to_hhmmss 59 = "00:59" ∧ "00:59" ≠ "0:59" ∧
    (add_pose WState.init 1 30).poseItems = ["01:30"] ∧
    ("01:30" : String) ≠ "1:30" := by
  exact ⟨by decide, by decide, by decide, by decide⟩

/-- C7 (amended): the formatter renders 59 seconds as `"00:59"` (zero-padded
minutes) and 3661 seconds as `"1:01:01"`; the hour component (a second ':'
separator) appears exactly when the total is at least 3600 seconds; and
adding a 1 minute 30 second pose appends an entry labelled `"01:30"`. -/
theorem C7_amended :
    seconds_to_hhmmss 59 = "00:59" ∧
    seconds_to_hhmmss 3661 = "1:01:01" ∧
    (∀ t : Int, countColons (seconds_to_hhmmss t) = 2 ↔ 3600 ≤ t) ∧
    (∀ st : WState, (add_pose st 1 30).poseItems = st.poseItems ++ ["01:30"]) := by
  refine ⟨by decide, by decide, ?_, ?_⟩
  · intro t
    rw [countColons_seconds_to_hhmmss]
    by_cases h : (3600 : Int) ≤ t
    · simp [h]
    · simp [h]
  · intro st
    have h90 : seconds_to_hhmmss 90 = "01:30" := by decide
    simp only [add_pose]
    norm_num
    rw [h90]

/-- C7 (witness): the amended claim applied at 3661 seconds and at a
concrete 1 minute 30 second `add_pose`. -/
theorem C7_witness :
    countColons (seconds_to_hhmmss 3661) = 2 ∧
    (add_pose WState.init 1 30).poseItems = ["01:30"] := by
  refine ⟨(C7_amended.2.2.1 3661).mpr (by decide), ?_⟩
  have h := C7_amended.2.2.2 WState.init
  simpa using h

/-- C9: `add_pose` computes `total = minutes*60 + seconds`; a non-positive
total is silently rejected with no state change at all, and a positive
total appends exactly one pose of that duration (and its label) to the end
of the pose list, leaving every other part of the state unchanged. -/
theorem C9_theorem (st : WState) (minutes seconds : Int) :
    (minutes * 60 + seconds ≤ 0 → add_pose st minutes seconds = st) ∧
    (0 < minutes * 60 + seconds →
      (add_pose st minutes seconds).poses =
          st.poses ++ [Pose.mk (minutes * 60 + seconds)] ∧
      (add_pose st minutes seconds).poseItems =
          st.poseItems ++ [seconds_to_hhmmss (minutes * 60 + seconds)] ∧
      (add_pose st minutes seconds).currentIndex = st.currentIndex ∧
      (add_pose st minutes seconds).autoAdvance = st.autoAdvance ∧
      (add_pose st minutes seconds).engine = st.engine ∧
      (add_pose st minutes seconds).played = st.played) := by
  constructor
  · intro h
    simp [add_pose, h]
  · intro h
    have h' : ¬ minutes * 60 + seconds ≤ 0 := by omega
    simp [add_pose, h']

/-- C9 (witness): a 0m0s pose is a perfect no-op; a 1m30s pose appends one
entry of 90 seconds. -/
theorem C9_witness :
    add_pose WState.init 0 0 = WState.init ∧
    (add_pose WState.init 1 30).poses = [Pose.mk 90] := by
  refine ⟨(C9_theorem WState.init 0 0).1 (by decide), ?_⟩
  have h := ((C9_theorem WState.init 1 30).2 (by decide)).1
  simpa using h

/-- C10: with no session started (`current_index = -1`) and a non-empty
pose list, `next_pose` is not guarded by session state: it advances to
index 0, plays exactly `pose_start` (no `session_start`), and starts the
engine with the first pose's duration. -/
theorem C10_theorem (st : WState) (now : Nat)
    (hidx : st.currentIndex = -1) (hne : st.poses ≠ []) :
    ∃ st' pose, next_pose st now = some st' ∧
      pyGet st.poses 0 = some pose ∧
      st'.currentIndex = 0 ∧
      st'.played = st.played ++ ["pose_start"] ∧
      st'.engine.remaining = pose.seconds ∧
      st'.engine.running = true := by
  obtain ⟨p, rest, hps⟩ := List.exists_cons_of_ne_nil hne
  have hcond : st.currentIndex < (st.poses.length : Int) - 1 := by
    rw [hidx, hps]
    simp only [List.length_cons]
    omega
  have hpg : pyGet st.poses (st.currentIndex + 1) = some p := by
    rw [hidx, hps]
    norm_num [pyGet]
  have hpg0 : pyGet st.poses 0 = some p := by
    rw [hps]
    norm_num [pyGet]
  simp only [next_pose, if_pos hcond, start_pose, hpg, Engine.start,
    WState.play]
  refine ⟨_, p, rfl, hpg0, ?_, rfl, rfl, rfl⟩
  rw [hidx]
  norm_num

/-- C10 (witness): the theorem at a never-started window holding one
5-second pose. -/
theorem C10_witness :
    (next_pose { WState.init with poses := [Pose.mk 5] } 0).map
        WState.currentIndex = some 0 ∧
    (next_pose { WState.init with poses := [Pose.mk 5] } 0).map
        WState.played = some ["pose_start"] := by
  obtain ⟨st', pose, heq, hpg, h0, hplayed, _, _⟩ :=
    C10_theorem { WState.init with poses := [Pose.mk 5] } 0 rfl (by simp)
  rw [heq]
  simp [h0, hplayed, WState.init]

/-- C6: on engine completion the window plays `over`, then: with
auto-advance on and a next pose, it advances the index, plays `pose_start`
and restarts the engine with the new pose's duration; with auto-advance on
and no next pose it shows `"Session Complete"`; with auto-advance off it
shows `"Pose Finished (Manual Advance)"` without advancing, the engine
untouched. -/
theorem C6_theorem (st : WState) (now : Nat) (hidx : 0 ≤ st.currentIndex) :
    (st.autoAdvance = true → st.currentIndex < (st.poses.length : Int) - 1 →
      ∃ st' pose, on_pose_finished st now = some st' ∧
        pyGet st.poses (st.currentIndex + 1) = some pose ∧
        st'.currentIndex = st.currentIndex + 1 ∧
        st'.played = st.played ++ ["over", "pose_start"] ∧
        st'.engine.remaining = pose.seconds ∧
        st'.engine.running = true) ∧
    (st.autoAdvance = true → ¬ st.currentIndex < (st.poses.length : Int) - 1 →
      ∃ st', on_pose_finished st now = some st' ∧
        st'.poseInfo = "Session Complete" ∧
        st'.currentIndex = st.currentIndex ∧
        st'.played = st.played ++ ["over"] ∧
        st'.engine = st.engine) ∧
    (st.autoAdvance = false →
      ∃ st', on_pose_finished st now = some st' ∧
        st'.poseInfo = "Pose Finished (Manual Advance)" ∧
        st'.currentIndex = st.currentIndex ∧
        st'.played = st.played ++ ["over"] ∧
        st'.engine = st.engine) := by
  refine ⟨?_, ?_, ?_⟩
  · intro hauto hnext
    have hlt : ((st.currentIndex + 1).toNat) < st.poses.length := by omega
    have hsome : pyGet st.poses (st.currentIndex + 1) =
        some (st.poses.get ⟨(st.currentIndex + 1).toNat, hlt⟩) := by
      rw [pyGet, if_pos (by omega : (0:Int) ≤ st.currentIndex + 1)]
      exact List.get?_eq_get hlt
    simp only [on_pose_finished, WState.play, hauto, if_true, start_pose,
      hsome, Engine.start, hnext]
    refine ⟨_, _, rfl, rfl, rfl, ?_, rfl, rfl⟩
    simp [List.append_assoc]
  · intro hauto hnolast
    simp only [on_pose_finished, WState.play, hauto, if_true, hnolast,
      if_false]
    exact ⟨_, rfl, rfl, rfl, rfl, rfl⟩
  · intro hauto
    simp only [on_pose_finished, WState.play, hauto, Bool.false_eq_true,
      if_false]
    exact ⟨_, rfl, rfl, rfl, rfl, rfl⟩

/-- C6 (witness): the theorem's three branches at concrete two-pose
windows: mid-session with auto-advance (advance and restart at 3), at the
last pose with auto-advance (`"Session Complete"`), and with auto-advance
off (`"Pose Finished (Manual Advance)"`). -/
theorem C6_witness :
    ((on_pose_finished
        { WState.init with poses := [Pose.mk 5, Pose.mk 3], currentIndex := 0 }
        0).map (fun s => (s.currentIndex, s.engine.remaining)) =
      some (1, 3)) ∧
    ((on_pose_finished
        { WState.init with poses := [Pose.mk 5, Pose.mk 3], currentIndex := 1 }
        0).map WState.poseInfo = some "Session Complete") ∧
    ((on_pose_finished
        { WState.init with
          poses := [Pose.mk 5, Pose.mk 3]
          currentIndex := 0
          autoAdvance := false }
        0).map WState.poseInfo = some "Pose Finished (Manual Advance)") := by
  refine ⟨?_, ?_, ?_⟩
  · obtain ⟨st', pose, heq, hpg, hci, _, hrem, _⟩ :=
      (C6_theorem
        { WState.init with poses := [Pose.mk 5, Pose.mk 3], currentIndex := 0 }
        0 (by decide)).1 rfl (by decide)
    rw [heq]
    have hpose : pose = Pose.mk 3 := by
      rw [show pyGet [Pose.mk 5, Pose.mk 3] (0 + 1) = some (Pose.mk 3)
        from by decide] at hpg
      exact (Option.some_injective _ hpg).symm
    simp [hci, hrem, hpose]
  · obtain ⟨st', heq, hinfo, _⟩ :=
      (C6_theorem
        { WState.init with poses := [Pose.mk 5, Pose.mk 3], currentIndex := 1 }
        0 (by decide)).2.1 rfl (by decide)
    rw [heq]
    simp [hinfo]
  · obtain ⟨st', heq, hinfo, _⟩ :=
      (C6_theorem
        { WState.init with
          poses := [Pose.mk 5, Pose.mk 3]
          currentIndex := 0
          autoAdvance := false }
        0 (by decide)).2.2 rfl
    rw [heq]
    simp [hinfo]

end LifeDrawing
